import Mathlib

/-!
Shallow embedding of the character-level sequence-to-sequence translation
pipeline of src/Machine-Translation.ipynb: corpus loading, character
indexing, one-hot tensor construction with space padding, teacher-forced
decoder input and target tensors, and the greedy autoregressive decoding
loop called decode_sequence.

Strings are modelled as lists of characters, tensor entries as natural
numbers (the source only ever writes the float values 0.0 and 1.0, which
are exact), probability distributions as lists of rationals, and the
opaque recurrent state as an abstract type parameter. Fallible dictionary
lookups and sequence unpacking are modelled with Except.
-/

namespace MT

/-- Model of the Python expression line.split(given TAB), splitting a list
of characters at every tab character; the empty list yields one empty
field, matching Python. -/
def splitTab : List Char → List (List Char)
  | [] => [[]]
  | c :: rest =>
    let r := splitTab rest
    if c = '\t' then [] :: r
    else (c :: r.headD []) :: r.tail

/-- Model of the unpacking statement ip,op = line.split(TAB) in cell 8:
it succeeds only when the line splits into exactly two fields; any other
field count raises ValueError. -/
def parseLine (line : List Char) : Except String (List Char × List Char) :=
  match splitTab line with
  | [ip, op] => Except.ok (ip, op)
  | _ => Except.error "ValueError"

/-- Framing of a target sentence with the START marker TAB prepended and
the END marker NEWLINE appended, as in cell 8. -/
def frameTarget (op : List Char) : List Char :=
  '\t' :: (op ++ ['\n'])

/-- Model of the corpus-loading loop of cell 8: each line is unpacked into
an input text and a framed target text; the first malformed line aborts
the whole load with its error. -/
def loadCorpus : List (List Char) → Except String (List (List Char × List Char))
  | [] => Except.ok []
  | l :: rest =>
    match parseLine l with
    | Except.error e => Except.error e
    | Except.ok p =>
      match loadCorpus rest with
      | Except.error e => Except.error e
      | Except.ok ps => Except.ok ((p.1, frameTarget p.2) :: ps)

/-- Model of cells 10 and 18: the character vocabulary of a list of texts,
as a duplicate-free list in a fixed deterministic order (the Python set has
some fixed iteration order; only distinctness and stability matter). -/
def alphabetOf (texts : List (List Char)) : List Char :=
  texts.flatten.dedup

/-- Model of the char2idx dictionaries of cell 18: a character maps to its
position in the alphabet enumeration, and a missing key yields none. -/
def char2idx (A : List Char) (c : Char) : Option Nat :=
  if c ∈ A then some (A.indexOf c) else none

/-- Model of the idx2char dictionaries of cell 20: an index maps back to
the character at that position of the alphabet enumeration. -/
def idx2char (A : List Char) (i : Nat) : Option Char :=
  A.get? i

/-- Dictionary lookup as performed by the tensor-filling loop of cell 25:
a missing character raises KeyError. -/
def lookupIdx (A : List Char) (c : Char) : Except String Nat :=
  match char2idx A c with
  | some i => Except.ok i
  | none => Except.error "KeyError"

/-- Row of zeros, one slot per alphabet entry, as allocated by np.zeros in
cells 23 and 40. -/
def zeroRow (n : Nat) : List Nat :=
  List.replicate n 0

/-- Model of the in-place numpy write row[i] = 1. -/
def setOne (row : List Nat) (i : Nat) : List Nat :=
  row.set i 1

/-- One-hot row over n slots with the single 1 at index i. -/
def oneHot (n i : Nat) : List Nat :=
  setOne (zeroRow n) i

/-- Model of the character loop of cell 25 for one sequence: row t gets a
1 at the index of character t; the first unknown character aborts with
KeyError. -/
def encodeRows (A : List Char) : List Char → Except String (List (List Nat))
  | [] => Except.ok []
  | c :: rest =>
    match lookupIdx A c with
    | Except.error e => Except.error e
    | Except.ok i =>
      match encodeRows A rest with
      | Except.error e => Except.error e
      | Except.ok rows => Except.ok (oneHot A.length i :: rows)

/-- Model of the per-sequence tensor fill of cell 25 for encoder input and
decoder input: one-hot rows for the characters of the sequence, then rows
from position seq.length up to maxLen padded at the index of the space
character. The source pads the slice from t + 1 on, where t is the final
loop counter, which equals seq.length ONLY for a nonempty sequence; for an
empty sequence the counter is stale from the previous pair (undefined on
the first pair), so this per-sequence model is faithful only for nonempty
sequences — the literal batch model encoderInputFill below captures the
stale-counter behaviour, and the two agree on nonempty sequences. The pad
lookup of the space character happens even when the pad slice is empty. -/
def encodeSeq (A : List Char) (maxLen : Nat) (seq : List Char) :
    Except String (List (List Nat)) :=
  match encodeRows A seq with
  | Except.error e => Except.error e
  | Except.ok rows =>
    match lookupIdx A ' ' with
    | Except.error e => Except.error e
    | Except.ok padIdx =>
      Except.ok (rows ++ List.replicate (maxLen - seq.length) (oneHot A.length padIdx))

/-- Model of the decoder_target_data fill of cell 25 for one framed target
sequence: the write at position t - 1 for every loop position t > 0 makes
row t - 1 the one-hot of character t, that is, one row per character of
seq.drop 1; rows from position seq.length - 1 up to maxLen are padded at
the space index. -/
def decoderTargetSeq (A : List Char) (maxLen : Nat) (seq : List Char) :
    Except String (List (List Nat)) :=
  match encodeRows A (seq.drop 1) with
  | Except.error e => Except.error e
  | Except.ok rows =>
    match lookupIdx A ' ' with
    | Except.error e => Except.error e
    | Except.ok padIdx =>
      Except.ok (rows ++ List.replicate (maxLen - (seq.length - 1)) (oneHot A.length padIdx))

/-- Literal model of the in-place writes M[t, char2idx[char]] = 1 of the
character loop of cell 25: entry i of row t is set to 1 for successive
positions t, all other entries kept; the first unknown character aborts
with KeyError. -/
def writeSeqRows (A : List Char) :
    List (List Nat) → List Char → Nat → Except String (List (List Nat))
  | M, [], _ => Except.ok M
  | M, c :: rest, t =>
    match lookupIdx A c with
    | Except.error e => Except.error e
    | Except.ok i => writeSeqRows A (M.set t ((M.getD t []).set i 1)) rest (t + 1)

/-- Literal model of the slice write M[start:, padIdx] = 1 of cell 25:
every row from position start on gets a 1 written at the pad index; rows
before start are kept unchanged. -/
def padFrom : List (List Nat) → Nat → Nat → List (List Nat)
  | [], _, _ => []
  | row :: rest, 0, padIdx => row.set padIdx 1 :: padFrom rest 0 padIdx
  | row :: rest, start + 1, padIdx => row :: padFrom rest start padIdx

/-- Literal model of the encoder-input part of one iteration of the fill
loop of cell 25, threading the Python loop variable t across iterations:
the character loop writes one-hot entries into rows 0 up to len - 1 of a
fresh zero matrix and leaves t at len - 1 when the text is nonempty; when
the text is EMPTY the loop body never runs, so t keeps the value left by
the previous iteration (NameError when there is none, that is, on the
very first pair); the pad write then sets the space index on every row
from t + 1 on. An empty text at a later position therefore leaves its
leading rows all-zero instead of pad rows. -/
def encoderFillOne (A : List Char) (maxLen : Nat) (ip : List Char)
    (t0 : Option Nat) : Except String (List (List Nat) × Option Nat) :=
  match writeSeqRows A (List.replicate maxLen (zeroRow A.length)) ip 0 with
  | Except.error e => Except.error e
  | Except.ok M =>
    let t1 : Option Nat := if ip.isEmpty then t0 else some (ip.length - 1)
    match t1 with
    | none => Except.error "NameError"
    | some t =>
      match lookupIdx A ' ' with
      | Except.error e => Except.error e
      | Except.ok padIdx => Except.ok (padFrom M (t + 1) padIdx, t1)

/-- Literal model of the outer fill loop of cell 25 restricted to the
encoder-input tensor, threading the loop variable t: after a pair is
processed the variable last holds the final position of the framed target
text, because the target loop runs after the encoder pad write and framed
target texts are nonempty (were a target text empty, the variable would
keep the value left by the encoder part). The decoder writes of the loop
body touch the two decoder tensors, modelled per sequence by encodeSeq
and decoderTargetSeq; their only effect on the encoder tensor is through
the loop variable, which is threaded here. -/
def encoderInputFill (A : List Char) (maxLen : Nat) :
    List (List Char × List Char) → Option Nat →
      Except String (List (List (List Nat)))
  | [], _ => Except.ok []
  | (ip, tg) :: rest, t0 =>
    match encoderFillOne A maxLen ip t0 with
    | Except.error e => Except.error e
    | Except.ok (M, t1) =>
      match encoderInputFill A maxLen rest
          (if tg.isEmpty then t1 else some (tg.length - 1)) with
      | Except.error e => Except.error e
      | Except.ok Ms => Except.ok (M :: Ms)

/-- Encoder-input tensors for a whole corpus, starting with the loop
variable unset, as at the beginning of cell 25. -/
def encoderInputData (A : List Char) (maxLen : Nat)
    (pairs : List (List Char × List Char)) :
    Except String (List (List (List Nat))) :=
  encoderInputFill A maxLen pairs none

/-- Helper for argmax: scan the remaining entries keeping the index of the
first maximum seen so far, as np.argmax does. -/
def argmaxGo : List ℚ → Nat → Nat → ℚ → Nat
  | [], _, bi, _ => bi
  | v :: rest, i, bi, bv =>
    if bv < v then argmaxGo rest (i + 1) i v
    else argmaxGo rest (i + 1) bi bv

/-- Model of np.argmax over the output distribution: index of the first
occurrence of the maximum entry. -/
def argmax : List ℚ → Nat
  | [] => 0
  | v :: rest => argmaxGo rest 1 0 v

/-- Model of the while loop of decode_sequence in cell 40. The decoder
adapter step is an abstract function from the current decoder-input row
and recurrent state to a distribution and a new state. Each iteration:
run the adapter on the current row, take the argmax, look the index up in
idx2char (KeyError on a miss, as for the dict), append the character to
the output, stop when it is the END marker NEWLINE or the output length
exceeds maxLen, and otherwise write a 1 at the predicted index into the
SAME row — the source never clears target_seq between iterations — and
recurse. The fuel argument makes the recursion structural; decode_sequence
supplies maxLen + 1, which the termination theorem shows is never
exhausted. The trace accumulator records the row passed to the adapter at
each iteration, for stating properties of the decoder inputs. -/
def decodeLoop {σ : Type} (step : List Nat → σ → List ℚ × σ) (A : List Char)
    (maxLen : Nat) :
    Nat → List Nat → σ → List Char → List (List Nat) →
      Except String (List Char × List (List Nat))
  | 0, _, _, _, _ => Except.error "OutOfFuel"
  | fuel + 1, row, s, out, trace =>
    let res := step row s
    let pidx := argmax res.1
    match idx2char A pidx with
    | none => Except.error "KeyError"
    | some pchar =>
      if pchar = '\n' ∨ maxLen < out.length + 1 then
        Except.ok (out ++ [pchar], trace ++ [row])
      else
        decodeLoop step A maxLen fuel (setOne row pidx) res.2
          (out ++ [pchar]) (trace ++ [row])

/-- Model of decode_sequence in cell 40: the initial recurrent state ctx is
the encoder-adapter output for the source sentence; the initial decoder
row is the one-hot of the START marker TAB, whose index is looked up in
char2idx; then the loop runs. The loop appends one character per
iteration and the length guard stops it once the output is longer than
maxLen, so maxLen + 1 rounds of fuel always suffice. -/
def decode_sequence {σ : Type} (step : List Nat → σ → List ℚ × σ)
    (A : List Char) (maxLen : Nat) (ctx : σ) :
    Except String (List Char × List (List Nat)) :=
  match lookupIdx A '\t' with
  | Except.error e => Except.error e
  | Except.ok si =>
    decodeLoop step A maxLen (maxLen + 1) (setOne (zeroRow A.length) si) ctx [] []

/-! Helper lemmas about the lookup, row and encoding functions. -/

theorem lookupIdx_ok_of_mem {A : List Char} {c : Char} (h : c ∈ A) :
    lookupIdx A c = Except.ok (A.indexOf c) := by
  simp [lookupIdx, char2idx, h]

theorem lookupIdx_error_of_not_mem {A : List Char} {c : Char} (h : c ∉ A) :
    lookupIdx A c = Except.error "KeyError" := by
  simp [lookupIdx, char2idx, h]

theorem lookupIdx_ok_elim {A : List Char} {c : Char} {i : Nat}
    (h : lookupIdx A c = Except.ok i) : c ∈ A ∧ i = A.indexOf c := by
  by_cases hm : c ∈ A
  · rw [lookupIdx_ok_of_mem hm] at h
    injection h with h
    exact ⟨hm, h.symm⟩
  · rw [lookupIdx_error_of_not_mem hm] at h
    exact Except.noConfusion h

theorem encodeRows_ok_elim {A : List Char} {seq : List Char} {rows : List (List Nat)}
    (h : encodeRows A seq = Except.ok rows) :
    rows = seq.map (fun c => oneHot A.length (A.indexOf c)) ∧ ∀ c ∈ seq, c ∈ A := by
  induction seq generalizing rows with
  | nil =>
    rw [encodeRows] at h
    injection h with h
    simp [← h]
  | cons c rest ih =>
    rw [encodeRows] at h
    cases hl : lookupIdx A c with
    | error e => rw [hl] at h; exact Except.noConfusion h
    | ok i =>
      rw [hl] at h
      cases hr : encodeRows A rest with
      | error e => rw [hr] at h; exact Except.noConfusion h
      | ok rs =>
        rw [hr] at h
        injection h with h
        obtain ⟨hm, hi⟩ := lookupIdx_ok_elim hl
        obtain ⟨h1, h2⟩ := ih hr
        subst hi h1
        refine ⟨by simp [← h], ?_⟩
        intro d hd
        rcases List.mem_cons.mp hd with rfl | hd2
        · exact hm
        · exact h2 d hd2

theorem encodeRows_ok_of_mem {A : List Char} {seq : List Char}
    (h : ∀ c ∈ seq, c ∈ A) :
    encodeRows A seq =
      Except.ok (seq.map (fun c => oneHot A.length (A.indexOf c))) := by
  induction seq with
  | nil => rfl
  | cons c rest ih =>
    rw [encodeRows, lookupIdx_ok_of_mem (h c (List.mem_cons_self c rest)),
      ih (fun d hd => h d (List.mem_cons_of_mem c hd))]
    rfl

theorem encodeRows_error {A : List Char} {seq : List Char} {c : Char}
    (hc : c ∈ seq) (hnot : c ∉ A) :
    encodeRows A seq = Except.error "KeyError" := by
  induction seq with
  | nil => cases hc
  | cons a rest ih =>
    rw [encodeRows]
    by_cases hm : a ∈ A
    · have hcr : c ∈ rest := by
        rcases List.mem_cons.mp hc with rfl | h2
        · exact absurd hm hnot
        · exact h2
      rw [lookupIdx_ok_of_mem hm, ih hcr]
    · rw [lookupIdx_error_of_not_mem hm]

theorem encodeSeq_ok_elim {A : List Char} {maxLen : Nat} {seq : List Char}
    {M : List (List Nat)} (h : encodeSeq A maxLen seq = Except.ok M) :
    (∀ c ∈ seq, c ∈ A) ∧ ' ' ∈ A ∧
      M = seq.map (fun c => oneHot A.length (A.indexOf c)) ++
        List.replicate (maxLen - seq.length) (oneHot A.length (A.indexOf ' ')) := by
  rw [encodeSeq] at h
  cases hr : encodeRows A seq with
  | error e => rw [hr] at h; exact Except.noConfusion h
  | ok rows =>
    rw [hr] at h
    cases hp : lookupIdx A ' ' with
    | error e => rw [hp] at h; exact Except.noConfusion h
    | ok padIdx =>
      rw [hp] at h
      injection h with h
      obtain ⟨h1, h2⟩ := encodeRows_ok_elim hr
      obtain ⟨hm, hi⟩ := lookupIdx_ok_elim hp
      subst h1 hi
      exact ⟨h2, hm, h.symm⟩

theorem decoderTargetSeq_ok_elim {A : List Char} {maxLen : Nat} {seq : List Char}
    {M : List (List Nat)} (h : decoderTargetSeq A maxLen seq = Except.ok M) :
    (∀ c ∈ seq.drop 1, c ∈ A) ∧ ' ' ∈ A ∧
      M = (seq.drop 1).map (fun c => oneHot A.length (A.indexOf c)) ++
        List.replicate (maxLen - (seq.length - 1)) (oneHot A.length (A.indexOf ' ')) := by
  rw [decoderTargetSeq] at h
  cases hr : encodeRows A (seq.drop 1) with
  | error e => rw [hr] at h; exact Except.noConfusion h
  | ok rows =>
    rw [hr] at h
    cases hp : lookupIdx A ' ' with
    | error e => rw [hp] at h; exact Except.noConfusion h
    | ok padIdx =>
      rw [hp] at h
      injection h with h
      obtain ⟨h1, h2⟩ := encodeRows_ok_elim hr
      obtain ⟨hm, hi⟩ := lookupIdx_ok_elim hp
      subst h1 hi
      exact ⟨h2, hm, h.symm⟩

theorem oneHot_sum : ∀ {n i : Nat}, i < n → (oneHot n i).sum = 1 := by
  intro n
  induction n with
  | zero => intro i h; omega
  | succ m ih =>
    intro i h
    cases i with
    | zero =>
      simp [oneHot, setOne, zeroRow, List.replicate_succ]
    | succ j =>
      have h2 : j < m := by omega
      have h3 := ih h2
      simp only [oneHot, setOne, zeroRow, List.replicate_succ, List.set_cons_succ,
        List.sum_cons] at h3 ⊢
      omega

theorem getD_map_append (f : Char → List Nat) :
    ∀ (seq : List Char) (pads : List (List Nat)) (t : Nat), t < seq.length →
      (seq.map f ++ pads).getD t [] = f (seq.getD t ' ')
  | [], _, t, h => absurd h (by simp)
  | c :: rest, pads, 0, _ => rfl
  | c :: rest, pads, t + 1, h =>
    getD_map_append f rest pads t (by simpa using h)

theorem getD_replicate (p : List Nat) :
    ∀ (k t : Nat), t < k → (List.replicate k p).getD t [] = p
  | 0, t, h => absurd h (by omega)
  | k + 1, 0, _ => rfl
  | k + 1, t + 1, h => getD_replicate p k t (by omega)

theorem getD_append_replicate (p : List Nat) :
    ∀ (rows : List (List Nat)) (k t : Nat), rows.length ≤ t → t < rows.length + k →
      (rows ++ List.replicate k p).getD t [] = p
  | [], k, t, _, h2 => getD_replicate p k t (by simpa using h2)
  | r :: rest, k, 0, h1, _ => absurd h1 (by simp)
  | r :: rest, k, t + 1, h1, h2 =>
    getD_append_replicate p rest k t (by simpa using h1) (by simp at h2 ⊢; omega)

theorem getD_drop_one (l : List Char) (t : Nat) (d : Char) :
    (l.drop 1).getD t d = l.getD (t + 1) d := by
  cases l <;> rfl

theorem parseLine_error_of_bad {line : List Char}
    (h : (splitTab line).length ≠ 2) :
    parseLine line = Except.error "ValueError" := by
  rw [parseLine]
  rcases hs : splitTab line with _ | ⟨a, _ | ⟨b, _ | ⟨c, tl⟩⟩⟩
  · rfl
  · rfl
  · exact absurd (by rw [hs]; rfl) h
  · rfl

theorem parseLine_error_elim {line : List Char} {e : String}
    (h : parseLine line = Except.error e) : e = "ValueError" := by
  rw [parseLine] at h
  rcases hs : splitTab line with _ | ⟨a, _ | ⟨b, _ | ⟨c, tl⟩⟩⟩ <;> rw [hs] at h
  · injection h with h; exact h.symm
  · injection h with h; exact h.symm
  · exact Except.noConfusion h
  · injection h with h; exact h.symm

theorem loadCorpus_error_elim :
    ∀ {data : List (List Char)} {e : String},
      loadCorpus data = Except.error e → e = "ValueError" := by
  intro data
  induction data with
  | nil => intro e h; exact Except.noConfusion h
  | cons l rest ih =>
    intro e h
    cases hp : parseLine l with
    | error e2 =>
      simp only [loadCorpus, hp] at h
      injection h with h
      rw [← h]
      exact parseLine_error_elim hp
    | ok p =>
      cases hr : loadCorpus rest with
      | error e2 =>
        simp only [loadCorpus, hp, hr] at h
        injection h with h
        rw [← h]
        exact ih hr
      | ok ps =>
        simp only [loadCorpus, hp, hr] at h
        exact Except.noConfusion h

/-- C7: corpus loading raises a malformed-input error for every line that
does not split into exactly two tab-separated fields: whenever some line
of the raw data has a field count other than two, loadCorpus returns the
ValueError of the unpacking statement instead of any list of pairs, so no
pairs from such a corpus are produced and the bad line is never silently
skipped. -/
theorem malformed_line_aborts_load (data : List (List Char)) (line : List Char)
    (hmem : line ∈ data) (hbad : (splitTab line).length ≠ 2) :
    loadCorpus data = Except.error "ValueError" := by
  induction data with
  | nil => cases hmem
  | cons l rest ih =>
    rcases List.mem_cons.mp hmem with rfl | hmem2
    · simp only [loadCorpus, parseLine_error_of_bad hbad]
    · cases hp : parseLine l with
      | error e =>
        have he := parseLine_error_elim hp
        subst he
        simp only [loadCorpus, hp]
      | ok p =>
        simp only [loadCorpus, hp, ih hmem2]

theorem malformed_line_aborts_load_witness :
    (['a', 'b'] : List Char) ∈ [['a', '\t', 'b'], ['a', 'b']] ∧
    (splitTab ['a', 'b']).length ≠ 2 ∧
    loadCorpus [['a', '\t', 'b'], ['a', 'b']] = Except.error "ValueError" := by
  refine ⟨by decide, by decide, ?_⟩
  exact malformed_line_aborts_load [['a', '\t', 'b'], ['a', 'b']] ['a', 'b']
    (by decide) (by decide)

/-- C5: round-trip indexing for every character of an alphabet built by
the vocabulary indexer: char2idx maps the character to its position in
the alphabet, that position lies in the contiguous range below the
alphabet size, composing char2idx with idx2char returns the character,
and composing idx2char with char2idx on any index below the alphabet size
returns that index, so the assigned indices cover exactly the range from
0 to the alphabet size. -/
theorem roundtrip_indexing (texts : List (List Char)) (c : Char) (i : Nat)
    (hc : c ∈ alphabetOf texts) (hi : i < (alphabetOf texts).length) :
    char2idx (alphabetOf texts) c = some ((alphabetOf texts).indexOf c) ∧
    (alphabetOf texts).indexOf c < (alphabetOf texts).length ∧
    (char2idx (alphabetOf texts) c).bind (idx2char (alphabetOf texts)) = some c ∧
    (idx2char (alphabetOf texts) i).bind (char2idx (alphabetOf texts)) = some i := by
  have h1 : char2idx (alphabetOf texts) c = some ((alphabetOf texts).indexOf c) := by
    simp [char2idx, hc]
  have hnd : (alphabetOf texts).Nodup := List.nodup_dedup _
  refine ⟨h1, List.indexOf_lt_length.mpr hc, ?_, ?_⟩
  · rw [h1]
    exact List.indexOf_get? hc
  · have h2 : idx2char (alphabetOf texts) i =
        some ((alphabetOf texts).get ⟨i, hi⟩) := by
      simp [idx2char, List.get?_eq_get hi]
    rw [h2]
    have hmem : (alphabetOf texts).get ⟨i, hi⟩ ∈ alphabetOf texts :=
      (alphabetOf texts).get_mem i hi
    simp only [Option.bind, char2idx, if_pos hmem]
    rw [List.get_indexOf hnd]

theorem roundtrip_indexing_witness :
    'a' ∈ alphabetOf [['a', 'b']] ∧ 1 < (alphabetOf [['a', 'b']]).length ∧
    (char2idx (alphabetOf [['a', 'b']]) 'a').bind (idx2char (alphabetOf [['a', 'b']]))
      = some 'a' ∧
    (idx2char (alphabetOf [['a', 'b']]) 1).bind (char2idx (alphabetOf [['a', 'b']]))
      = some 1 := by
  have h := roundtrip_indexing [['a', 'b']] 'a' 1 (by decide) (by decide)
  exact ⟨by decide, by decide, h.2.2.1, h.2.2.2⟩

/-- C8: encoding a sequence containing a character absent from the frozen
index fails with the KeyError of the dictionary lookup, surfaced to the
caller; no tensor is produced for that sequence, so no corrupted row can
reach the model. -/
theorem unknown_char_error (A : List Char) (maxLen : Nat) (seq : List Char)
    (c : Char) (hc : c ∈ seq) (hnot : c ∉ A) :
    encodeSeq A maxLen seq = Except.error "KeyError" := by
  simp only [encodeSeq, encodeRows_error hc hnot]

theorem unknown_char_error_witness :
    'b' ∈ (['a', 'b'] : List Char) ∧ 'b' ∉ (['a', ' '] : List Char) ∧
    encodeSeq ['a', ' '] 4 ['a', 'b'] = Except.error "KeyError" := by
  refine ⟨by decide, by decide, ?_⟩
  exact unknown_char_error ['a', ' '] 4 ['a', 'b'] 'b' (by decide) (by decide)

/-- Decoder adapter stub over the alphabet TAB, a, NEWLINE that always
returns the distribution concentrated on index 1, the character a. -/
def stubRepeat : List Nat → Unit → List ℚ × Unit :=
  fun _ _ => ([0, 1, 0], ())

/-- C1 fails on the code: decode_sequence initialises target_seq to the
one-hot of the START marker but never clears it inside the loop, so from
the second iteration on the row passed to the decoder adapter has a 1 at
the START index and at every previously predicted index. With the
adapter stubRepeat that always predicts the character a over the alphabet
TAB, a, NEWLINE and maxLen 2, the rows passed to the adapter are
[1,0,0], [1,1,0], [1,1,0]: the row of the second and third calls sums to
2, not 1, refuting the one-hot invariant claimed for every iteration. -/
theorem decoder_input_row_not_one_hot :
    decode_sequence stubRepeat ['\t', 'a', '\n'] 2 () =
      Except.ok (['a', 'a', 'a'], [[1, 0, 0], [1, 1, 0], [1, 1, 0]]) ∧
    (([[1, 0, 0], [1, 1, 0], [1, 1, 0]] : List (List Nat)).getD 1 []).sum ≠ 1 :=
  ⟨rfl, by decide⟩

theorem set_append_length (pre l : List (List Nat)) (v : List Nat) :
    (pre ++ l).set pre.length v = pre ++ l.set 0 v := by
  induction pre with
  | nil => rfl
  | cons a pre ih => simp [List.set_cons_succ, ih]

theorem writeSeqRows_ok (A : List Char) :
    ∀ (seq : List Char) (pre : List (List Nat)) (k : Nat),
      (∀ c ∈ seq, c ∈ A) → seq.length ≤ k →
      writeSeqRows A (pre ++ List.replicate k (zeroRow A.length)) seq pre.length =
        Except.ok (pre ++ (seq.map (fun c => oneHot A.length (A.indexOf c)) ++
          List.replicate (k - seq.length) (zeroRow A.length))) := by
  intro seq
  induction seq with
  | nil =>
    intro pre k h hk
    simp [writeSeqRows]
  | cons c rest ih =>
    intro pre k h hk
    cases k with
    | zero => simp at hk
    | succ k2 =>
      have hmem := h c (List.mem_cons_self c rest)
      have hget : (pre ++ List.replicate (k2 + 1) (zeroRow A.length)).getD
          pre.length [] = zeroRow A.length :=
        getD_append_replicate _ pre (k2 + 1) pre.length (le_refl _) (by omega)
      simp only [writeSeqRows, lookupIdx_ok_of_mem hmem, hget]
      rw [List.replicate_succ, set_append_length, List.set_cons_zero]
      have hre : pre ++ (zeroRow A.length).set (A.indexOf c) 1 ::
          List.replicate k2 (zeroRow A.length) =
          (pre ++ [oneHot A.length (A.indexOf c)]) ++
            List.replicate k2 (zeroRow A.length) := by
        simp [oneHot, setOne]
      have hlen2 : pre.length + 1 = (pre ++ [oneHot A.length (A.indexOf c)]).length := by
        simp
      rw [hre, hlen2, ih (pre ++ [oneHot A.length (A.indexOf c)]) k2
        (fun d hd => h d (List.mem_cons_of_mem c hd)) (by simpa using hk)]
      simp [List.append_assoc]

theorem writeSeqRows_error (A : List Char) {c : Char} (hnot : c ∉ A) :
    ∀ (seq : List Char) (M : List (List Nat)) (t : Nat), c ∈ seq →
      writeSeqRows A M seq t = Except.error "KeyError" := by
  intro seq
  induction seq with
  | nil => intro M t hc; cases hc
  | cons a rest ih =>
    intro M t hc
    by_cases hm : a ∈ A
    · have hcr : c ∈ rest := by
        rcases List.mem_cons.mp hc with rfl | h2
        · exact absurd hm hnot
        · exact h2
      simp only [writeSeqRows, lookupIdx_ok_of_mem hm]
      exact ih _ _ hcr
    · simp only [writeSeqRows, lookupIdx_error_of_not_mem hm]

theorem padFrom_append (rows rest : List (List Nat)) (padIdx : Nat) :
    padFrom (rows ++ rest) rows.length padIdx = rows ++ padFrom rest 0 padIdx := by
  induction rows with
  | nil => rfl
  | cons r rows ih => simp [padFrom, ih]

theorem padFrom_replicate_zero (m n padIdx : Nat) :
    padFrom (List.replicate m (zeroRow n)) 0 padIdx =
      List.replicate m (oneHot n padIdx) := by
  induction m with
  | zero => rfl
  | succ m2 ih => simp [List.replicate_succ, padFrom, ih, oneHot, setOne]

/-- Faithfulness of the per-sequence encoder model on its domain: for
every NONEMPTY sequence that fits maxLen, the literal write model of one
iteration of the fill loop of cell 25 produces exactly the tensor of
encodeSeq, together with the loop variable left at len - 1, for any
incoming loop-variable value; the two models also fail identically. The
two models differ only on an empty sequence, where the source uses the
stale loop counter. -/
theorem encoderFillOne_eq_encodeSeq (A : List Char) (maxLen : Nat)
    (ip : List Char) (t0 : Option Nat) (hne : ip ≠ [])
    (hlen : ip.length ≤ maxLen) :
    encoderFillOne A maxLen ip t0 =
      (encodeSeq A maxLen ip).map (fun M => (M, some (ip.length - 1))) := by
  have hie : ip.isEmpty = false := by
    cases ip
    · exact absurd rfl hne
    · rfl
  have ht1 : (if ip.isEmpty then t0 else some (ip.length - 1)) =
      some (ip.length - 1) := by
    rw [hie]
    rfl
  by_cases hall : ∀ c ∈ ip, c ∈ A
  · have hw := writeSeqRows_ok A ip [] maxLen hall hlen
    simp only [List.nil_append, List.length_nil] at hw
    cases hp : lookupIdx A ' ' with
    | error e =>
      simp only [encoderFillOne, hw, ht1, hp, encodeSeq, encodeRows_ok_of_mem hall]
      rfl
    | ok padIdx =>
      have hsucc : ip.length - 1 + 1 = ip.length := by
        have := List.length_pos.mpr hne
        omega
      simp only [encoderFillOne, hw, ht1, hp, encodeSeq, encodeRows_ok_of_mem hall]
      rw [hsucc]
      have hml : ip.length = (ip.map (fun c => oneHot A.length (A.indexOf c))).length := by
        simp
      rw [hml, padFrom_append, padFrom_replicate_zero]
      rfl
  · push_neg at hall
    obtain ⟨c, hc, hnot⟩ := hall
    simp only [encoderFillOne, writeSeqRows_error A hnot ip _ 0 hc, encodeSeq,
      encodeRows_error hc hnot]
    rfl

/-- Raw corpus line with English side Go on. and German side
Mach weiter. separated by a tab. -/
def goLine : List Char :=
  ['G', 'o', ' ', 'o', 'n', '.', '\t', 'M', 'a', 'c', 'h', ' ', 'w', 'e',
   'i', 't', 'e', 'r', '.']

/-- Raw corpus line with an EMPTY English side and German side Hallo:
it splits into exactly two tab-separated fields, so corpus loading
accepts it. -/
def halloLine : List Char :=
  ['\t', 'H', 'a', 'l', 'l', 'o']

/-- Encoder tensor of the first pair of the two-line counterexample
corpus, over its input alphabet G, space, o, n, dot. -/
def goTensor : List (List Nat) :=
  [[1, 0, 0, 0, 0], [0, 0, 1, 0, 0], [0, 1, 0, 0, 0], [0, 0, 1, 0, 0],
   [0, 0, 0, 1, 0], [0, 0, 0, 0, 1]]

/-- Six all-zero rows over a five-character alphabet. -/
def zeroTensor : List (List Nat) :=
  [[0, 0, 0, 0, 0], [0, 0, 0, 0, 0], [0, 0, 0, 0, 0], [0, 0, 0, 0, 0],
   [0, 0, 0, 0, 0], [0, 0, 0, 0, 0]]

/-- C4 fails on the code for empty sequences: the two raw lines load into
a well-formed corpus whose second pair has an EMPTY input text, and the
literal model of the fill loop of cell 25 then produces for that text a
tensor whose rows are ALL ZERO — the character loop never runs, so the
pad slice starts at the stale loop counter 13 + 1 left by the previous
framed target text, beyond the tensor — so its row 0 sums to 0, not 1,
refuting the claimed row-sum-1 invariant for every processed sequence. -/
theorem stale_pad_leaves_zero_rows :
    loadCorpus [goLine, halloLine] = Except.ok
      [(['G', 'o', ' ', 'o', 'n', '.'],
        frameTarget ['M', 'a', 'c', 'h', ' ', 'w', 'e', 'i', 't', 'e', 'r', '.']),
       ([], frameTarget ['H', 'a', 'l', 'l', 'o'])] ∧
    alphabetOf [['G', 'o', ' ', 'o', 'n', '.'], []] = ['G', ' ', 'o', 'n', '.'] ∧
    encoderInputData (alphabetOf [['G', 'o', ' ', 'o', 'n', '.'], []]) 6
      [(['G', 'o', ' ', 'o', 'n', '.'],
        frameTarget ['M', 'a', 'c', 'h', ' ', 'w', 'e', 'i', 't', 'e', 'r', '.']),
       ([], frameTarget ['H', 'a', 'l', 'l', 'o'])] =
      Except.ok [goTensor, zeroTensor] ∧
    (zeroTensor.getD 0 []).sum = 0 :=
  ⟨rfl, rfl, rfl, by decide⟩

/-- C4 as amended: every timestep row of a tensor produced by the
per-sequence encoder for a NONEMPTY sequence sums to exactly 1: the
tensor has maxLen rows, rows at timesteps below the sequence length are
the one-hot of the character at that timestep, and rows from the
sequence length up to maxLen are the one-hot of the pad index, the index
of the space character. The nonemptiness hypothesis is what the
counterexample forces: for an empty sequence the source pads from the
stale loop counter of the previous pair, leaving all-zero rows, and
encodeSeq agrees with the literal write model of the fill loop exactly
on nonempty sequences. -/
theorem encodeSeq_one_hot_rows (A : List Char) (maxLen : Nat) (seq : List Char)
    (M : List (List Nat)) (_hne : seq ≠ []) (hlen : seq.length ≤ maxLen)
    (henc : encodeSeq A maxLen seq = Except.ok M) :
    M.length = maxLen ∧
    (∀ t, t < maxLen → (M.getD t []).sum = 1) ∧
    (∀ t, t < seq.length →
      M.getD t [] = oneHot A.length (A.indexOf (seq.getD t ' '))) ∧
    (∀ t, seq.length ≤ t → t < maxLen →
      M.getD t [] = oneHot A.length (A.indexOf ' ')) := by
  obtain ⟨hchars, hsp, hM⟩ := encodeSeq_ok_elim henc
  subst hM
  have hmain : ∀ t, t < seq.length →
      (seq.map (fun c => oneHot A.length (A.indexOf c)) ++
        List.replicate (maxLen - seq.length) (oneHot A.length (A.indexOf ' '))).getD t []
        = oneHot A.length (A.indexOf (seq.getD t ' ')) :=
    fun t ht => getD_map_append _ seq _ t ht
  have hpad : ∀ t, seq.length ≤ t → t < maxLen →
      (seq.map (fun c => oneHot A.length (A.indexOf c)) ++
        List.replicate (maxLen - seq.length) (oneHot A.length (A.indexOf ' '))).getD t []
        = oneHot A.length (A.indexOf ' ') := by
    intro t h1 h2
    apply getD_append_replicate
    · simpa using h1
    · simp
      omega
  refine ⟨by simp; omega, ?_, hmain, hpad⟩
  intro t ht
  by_cases hcase : t < seq.length
  · rw [hmain t hcase]
    apply oneHot_sum
    apply List.indexOf_lt_length.mpr
    apply hchars
    rw [List.getD_eq_getElem seq ' ' hcase]
    exact List.getElem_mem hcase
  · rw [hpad t (Nat.le_of_not_lt hcase) ht]
    exact oneHot_sum (List.indexOf_lt_length.mpr hsp)

theorem encodeSeq_one_hot_rows_witness :
    (['H', 'i', '.'] : List Char) ≠ [] ∧
    (['H', 'i', '.'] : List Char).length ≤ 5 ∧
    encodeSeq ['H', 'i', '.', ' '] 5 ['H', 'i', '.'] =
      Except.ok [[1, 0, 0, 0], [0, 1, 0, 0], [0, 0, 1, 0], [0, 0, 0, 1], [0, 0, 0, 1]] ∧
    (([[1, 0, 0, 0], [0, 1, 0, 0], [0, 0, 1, 0], [0, 0, 0, 1], [0, 0, 0, 1]] :
        List (List Nat)).getD 4 []).sum = 1 := by
  refine ⟨by decide, by decide, rfl, ?_⟩
  exact (encodeSeq_one_hot_rows ['H', 'i', '.', ' '] 5 ['H', 'i', '.']
    [[1, 0, 0, 0], [0, 1, 0, 0], [0, 0, 1, 0], [0, 0, 0, 1], [0, 0, 0, 1]]
    (by decide) (by decide) rfl).2.1 4 (by decide)

/-- C3: teacher-forcing alignment for a framed target sequence. The
decoder-target tensor is the decoder-input tensor shifted left by one
timestep with a final pad row appended; position 0 of the decoder input
is the one-hot of the START marker TAB; the target row at position t is
the one-hot of the character at position t + 1 of the framed sequence;
and target rows from position length - 1 up to maxLen are the one-hot of
the pad index. -/
theorem teacher_forcing_shift (A : List Char) (maxLen : Nat) (op : List Char)
    (inp tgt : List (List Nat))
    (hlen : (frameTarget op).length ≤ maxLen)
    (hinp : encodeSeq A maxLen (frameTarget op) = Except.ok inp)
    (htgt : decoderTargetSeq A maxLen (frameTarget op) = Except.ok tgt) :
    tgt = inp.drop 1 ++ [oneHot A.length (A.indexOf ' ')] ∧
    inp.getD 0 [] = oneHot A.length (A.indexOf '\t') ∧
    (∀ t, t + 1 < (frameTarget op).length →
      tgt.getD t [] = oneHot A.length (A.indexOf ((frameTarget op).getD (t + 1) ' '))) ∧
    (∀ t, (frameTarget op).length - 1 ≤ t → t < maxLen →
      tgt.getD t [] = oneHot A.length (A.indexOf ' ')) := by
  obtain ⟨hc1, hsp1, hI⟩ := encodeSeq_ok_elim hinp
  obtain ⟨hc2, hsp2, hT⟩ := decoderTargetSeq_ok_elim htgt
  subst hI hT
  have hfl : (frameTarget op).length = op.length + 2 := by simp [frameTarget]
  have harith : maxLen - ((frameTarget op).length - 1) =
      (maxLen - (frameTarget op).length) + 1 := by
    rw [hfl] at hlen ⊢
    omega
  refine ⟨?_, ?_, ?_, ?_⟩
  · rw [harith, List.replicate_succ']
    simp only [frameTarget, List.map_cons, List.cons_append, List.drop_succ_cons,
      List.drop_zero, List.append_assoc]
  · rfl
  · intro t ht
    have hlt : t < ((frameTarget op).drop 1).length := by
      simp only [List.length_drop]
      omega
    rw [getD_map_append _ ((frameTarget op).drop 1) _ t hlt, getD_drop_one]
  · intro t h1 h2
    apply getD_append_replicate
    · simp only [List.length_map, List.length_drop]
      exact h1
    · simp only [List.length_map, List.length_drop]
      rw [hfl] at hlen h1 ⊢
      omega

/-- Target alphabet of the example pair with German target Geh. -/
def gehA : List Char := ['\t', 'G', 'e', 'h', '.', '\n', ' ']

/-- Decoder-input tensor of the framed example target, maxLen 7. -/
def gehInp : List (List Nat) :=
  [[1, 0, 0, 0, 0, 0, 0], [0, 1, 0, 0, 0, 0, 0], [0, 0, 1, 0, 0, 0, 0],
   [0, 0, 0, 1, 0, 0, 0], [0, 0, 0, 0, 1, 0, 0], [0, 0, 0, 0, 0, 1, 0],
   [0, 0, 0, 0, 0, 0, 1]]

/-- Decoder-target tensor of the framed example target, maxLen 7. -/
def gehTgt : List (List Nat) :=
  [[0, 1, 0, 0, 0, 0, 0], [0, 0, 1, 0, 0, 0, 0], [0, 0, 0, 1, 0, 0, 0],
   [0, 0, 0, 0, 1, 0, 0], [0, 0, 0, 0, 0, 1, 0], [0, 0, 0, 0, 0, 0, 1],
   [0, 0, 0, 0, 0, 0, 1]]

theorem teacher_forcing_shift_witness :
    (frameTarget ['G', 'e', 'h', '.']).length ≤ 7 ∧
    encodeSeq gehA 7 (frameTarget ['G', 'e', 'h', '.']) = Except.ok gehInp ∧
    decoderTargetSeq gehA 7 (frameTarget ['G', 'e', 'h', '.']) = Except.ok gehTgt ∧
    gehTgt = gehInp.drop 1 ++ [oneHot gehA.length (gehA.indexOf ' ')] ∧
    gehInp.getD 0 [] = oneHot gehA.length (gehA.indexOf '\t') := by
  have h := teacher_forcing_shift gehA 7 ['G', 'e', 'h', '.'] gehInp gehTgt
    (by decide) rfl rfl
  exact ⟨by decide, rfl, rfl, h.1, h.2.1⟩

theorem decodeLoop_no_end {σ : Type} (step : List Nat → σ → List ℚ × σ)
    (A : List Char) (maxLen : Nat)
    (hrange : ∀ row s, (idx2char A (argmax (step row s).1)).isSome)
    (hnoEnd : ∀ row s, idx2char A (argmax (step row s).1) ≠ some '\n') :
    ∀ (fuel : Nat) (row : List Nat) (s : σ) (out : List Char) (trace : List (List Nat)),
      out.length + fuel = maxLen + 1 → out.length ≤ maxLen →
      ∃ res, decodeLoop step A maxLen fuel row s out trace = Except.ok res ∧
        res.1.length = maxLen + 1 := by
  intro fuel
  induction fuel with
  | zero => intro row s out trace h1 h2; omega
  | succ f ih =>
    intro row s out trace h1 h2
    obtain ⟨ch, hch⟩ := Option.isSome_iff_exists.mp (hrange row s)
    have hch2 : ch ≠ '\n' := by
      intro he
      exact hnoEnd row s (he ▸ hch)
    by_cases hb : maxLen < out.length + 1
    · refine ⟨(out ++ [ch], trace ++ [row]), ?_, ?_⟩
      · simp only [decodeLoop, hch]
        rw [if_pos (Or.inr hb)]
      · simp
        omega
    · have hcond : ¬(ch = '\n' ∨ maxLen < out.length + 1) := by
        rintro (h3 | h3)
        · exact hch2 h3
        · exact hb h3
      obtain ⟨res, hres, hlen2⟩ := ih (setOne row (argmax (step row s).1))
        (step row s).2 (out ++ [ch]) (trace ++ [row]) (by simp; omega) (by simp; omega)
      refine ⟨res, ?_, hlen2⟩
      simp only [decodeLoop, hch]
      rw [if_neg hcond]
      exact hres

/-- C2: the decoding loop always terminates, because the END test and the
length guard are evaluated on every iteration. For every decoder adapter
whose argmax index is always in range and never decodes to the END marker
NEWLINE, decoding from any initial recurrent state succeeds and the
decoded output has exactly maxLen + 1 characters; in particular the
maxLen + 1 rounds of fuel supplied by decode_sequence are never
exhausted, so the loop never runs unboundedly. -/
theorem length_guard_terminates {σ : Type} (step : List Nat → σ → List ℚ × σ)
    (A : List Char) (maxLen : Nat) (ctx : σ) (si : Nat)
    (hstart : lookupIdx A '\t' = Except.ok si)
    (hrange : ∀ row s, (idx2char A (argmax (step row s).1)).isSome)
    (hnoEnd : ∀ row s, idx2char A (argmax (step row s).1) ≠ some '\n') :
    (decode_sequence step A maxLen ctx).toOption.map (fun r => r.1.length) =
      some (maxLen + 1) := by
  obtain ⟨res, hres, hlen⟩ := decodeLoop_no_end step A maxLen hrange hnoEnd
    (maxLen + 1) (setOne (zeroRow A.length) si) ctx [] [] (by simp) (by simp)
  simp only [decode_sequence, hstart, hres]
  simp [Except.toOption, hlen]

theorem length_guard_terminates_witness :
    lookupIdx ['\t', 'a', '\n'] '\t' = Except.ok 0 ∧
    (decode_sequence stubRepeat ['\t', 'a', '\n'] 2 ()).toOption.map
      (fun r => r.1.length) = some 3 := by
  refine ⟨rfl, ?_⟩
  have hr : (idx2char ['\t', 'a', '\n'] (argmax ([0, 1, 0] : List ℚ))).isSome = true := by
    decide
  have hn : idx2char ['\t', 'a', '\n'] (argmax ([0, 1, 0] : List ℚ)) ≠ some '\n' := by
    decide
  exact length_guard_terminates stubRepeat ['\t', 'a', '\n'] 2 () 0 rfl
    (fun _ _ => hr) (fun _ _ => hn)

theorem decodeLoop_end_last {σ : Type} (step : List Nat → σ → List ℚ × σ)
    (A : List Char) (maxLen : Nat) :
    ∀ (fuel : Nat) (row : List Nat) (s : σ) (out : List Char)
      (trace : List (List Nat)) (res : List Char × List (List Nat)),
      decodeLoop step A maxLen fuel row s out trace = Except.ok res →
      res.1.length ≤ maxLen → res.1.getLast? = some '\n' := by
  intro fuel
  induction fuel with
  | zero => intro row s out trace res h hl; exact Except.noConfusion h
  | succ f ih =>
    intro row s out trace res h hl
    cases hch : idx2char A (argmax (step row s).1) with
    | none =>
      simp only [decodeLoop, hch] at h
      exact Except.noConfusion h
    | some ch =>
      simp only [decodeLoop, hch] at h
      by_cases hcond : ch = '\n' ∨ maxLen < out.length + 1
      · rw [if_pos hcond] at h
        injection h with h
        have hr1 : res.1 = out ++ [ch] := by rw [← h]
        rw [hr1] at hl ⊢
        rw [List.getLast?_concat]
        rcases hcond with hcend | hblen
        · rw [hcend]
        · exfalso
          simp at hl
          omega
      · rw [if_neg hcond] at h
        exact ih _ _ _ _ _ h hl

/-- C6: if the decoder adapter decodes to the END marker NEWLINE on its
very first call, decode_sequence returns the single-character output
NEWLINE together with the single-row trace of the START one-hot; and in
general every successful decode whose output is within the length bound
terminated through the END test, so its last character is the END
marker. -/
theorem end_marker_termination {σ : Type} (step : List Nat → σ → List ℚ × σ)
    (A : List Char) (maxLen : Nat) (ctx : σ) (si : Nat)
    (hstart : lookupIdx A '\t' = Except.ok si) :
    (idx2char A (argmax (step (setOne (zeroRow A.length) si) ctx).1) = some '\n' →
      decode_sequence step A maxLen ctx =
        Except.ok (['\n'], [setOne (zeroRow A.length) si])) ∧
    (∀ out trace, decode_sequence step A maxLen ctx = Except.ok (out, trace) →
      out.length ≤ maxLen → out.getLast? = some '\n') := by
  constructor
  · intro hfirst
    simp only [decode_sequence, hstart, decodeLoop, hfirst]
    simp
  · intro out trace h hle
    simp only [decode_sequence, hstart] at h
    exact decodeLoop_end_last step A maxLen (maxLen + 1) _ _ _ _ _ h hle

/-- Decoder adapter stub over the alphabet TAB, NEWLINE that always
returns the distribution concentrated on index 1, the END marker. -/
def stubEnd : List Nat → Unit → List ℚ × Unit :=
  fun _ _ => ([0, 1], ())

theorem end_marker_termination_witness :
    lookupIdx ['\t', '\n'] '\t' = Except.ok 0 ∧
    idx2char ['\t', '\n'] (argmax (stubEnd (setOne (zeroRow 2) 0) ()).1) = some '\n' ∧
    decode_sequence stubEnd ['\t', '\n'] 3 () =
      Except.ok (['\n'], [setOne (zeroRow 2) 0]) ∧
    (['\n'] : List Char).getLast? = some '\n' := by
  have h := end_marker_termination stubEnd ['\t', '\n'] 3 () 0 rfl
  refine ⟨rfl, by decide, h.1 (by decide), ?_⟩
  exact h.2 ['\n'] [setOne (zeroRow 2) 0] (h.1 (by decide)) (by decide)

theorem decodeLoop_output_grows {σ : Type} (step : List Nat → σ → List ℚ × σ)
    (A : List Char) (maxLen : Nat) :
    ∀ (fuel : Nat) (row : List Nat) (s : σ) (out : List Char)
      (trace : List (List Nat)) (res : List Char × List (List Nat)),
      decodeLoop step A maxLen fuel row s out trace = Except.ok res →
      out.length + 1 ≤ res.1.length := by
  intro fuel
  induction fuel with
  | zero => intro row s out trace res h; exact Except.noConfusion h
  | succ f ih =>
    intro row s out trace res h
    cases hch : idx2char A (argmax (step row s).1) with
    | none =>
      simp only [decodeLoop, hch] at h
      exact Except.noConfusion h
    | some ch =>
      simp only [decodeLoop, hch] at h
      by_cases hcond : ch = '\n' ∨ maxLen < out.length + 1
      · rw [if_pos hcond] at h
        injection h with h
        have hr1 : res.1 = out ++ [ch] := by rw [← h]
        rw [hr1]
        simp
      · rw [if_neg hcond] at h
        have h2 := ih _ _ _ _ _ h
        simp at h2
        omega

/-- C10: the decoded output is never empty: the loop body appends the
predicted character before either termination condition is evaluated, so
every successful decode returns at least one character, even when the
adapter emits the END marker immediately or maxLen is 0. -/
theorem decode_output_nonempty {σ : Type} (step : List Nat → σ → List ℚ × σ)
    (A : List Char) (maxLen : Nat) (ctx : σ) (out : List Char)
    (trace : List (List Nat))
    (h : decode_sequence step A maxLen ctx = Except.ok (out, trace)) :
    1 ≤ out.length := by
  cases hs : lookupIdx A '\t' with
  | error e =>
    simp only [decode_sequence, hs] at h
    exact Except.noConfusion h
  | ok si =>
    simp only [decode_sequence, hs] at h
    have h2 := decodeLoop_output_grows step A maxLen (maxLen + 1) _ _ _ _ _ h
    simpa using h2

theorem decode_output_nonempty_witness :
    decode_sequence stubEnd ['\t', '\n'] 0 () =
      Except.ok (['\n'], [setOne (zeroRow 2) 0]) ∧
    1 ≤ (['\n'] : List Char).length := by
  refine ⟨rfl, ?_⟩
  exact decode_output_nonempty stubEnd ['\t', '\n'] 0 () ['\n']
    [setOne (zeroRow 2) 0] rfl

end MT
